import Mathlib

/-!
# Verification of `MRzeroCore/simulation/main_pass.py`

Shallow embedding of the phase-distribution-graph main pass
(`execute_graph` and its helpers) over exact real/complex arithmetic:

* torch float tensors over voxels become functions `Fin n → ℝ` / `Fin n → ℂ`;
* per-event tensors become Lean `List`s (one entry per event);
* a state's magnetization is `Option (Fin n → ℂ)` (`None` = not simulated);
* the Python `ValueError` raised by `calc_mag` and the `assert` on the shim
  array shape become `Except String` results that propagate to the caller;
* the four distribution kinds `"z0"`, `"z"`, `"+"`, `"-"` become an inductive
  type; RF transition labels stay `String` because `calc_mag` must reject
  unknown labels at run time.

`print_progress`, `return_mag_adc` and `clear_state_mag` are omitted: the
first only prints, the second only returns an additional diagnostic list, and
the third clears magnetization of states of the previous repetition after the
last read (states are only ever read one repetition later, so in this pure
state-passing embedding the cleared values are simply dropped).
-/

namespace MainPass

/-- The four values of `state.dist_type`: `"z0"`, `"z"`, `"+"`, `"-"`. -/
inductive DistType where
  | z0 : DistType
  | z : DistType
  | plus : DistType
  | minus : DistType
deriving DecidableEq

/-- A `_prepass.PyDistribution` node of the graph, as consumed by the main
pass.  `ancestors` holds `(edge label, index of the parent in the previous
repetition's node list)` pairs; the pointer references of the Python object
graph are replaced by indices, which is faithful because a node's ancestors
belong to the immediately preceding repetition. -/
structure PyDistribution (n : ℕ) where
  dist_type : DistType
  kt_vec : Fin 4 → ℝ
  latent_signal : ℝ
  emitted_signal : ℝ
  ancestors : List (String × ℕ)

/-- The two fields of a node that the main pass owns and overwrites:
magnetization per voxel (`none` = not simulated) and the recomputed
(kx, ky, kz, τ) vector. -/
structure State (n : ℕ) where
  mag : Option (Fin n → ℂ)
  kt_vec : Fin 4 → ℝ

/-- Default state used when indexing state lists (`mag = None`). -/
def default_state (n : ℕ) : State n := ⟨none, fun _ => 0⟩

/-- Default distribution used when indexing node lists. -/
def default_dist (n : ℕ) : PyDistribution n := ⟨DistType.z0, fun _ => 0, 0, 0, []⟩

/-- The pulse `rep.pulse`: flip angle, phase and the shim array (rows of
(amplitude, phase), one per transmit channel). -/
structure Pulse where
  angle : ℝ
  phase : ℝ
  shim_array : List (ℝ × ℝ)

/-- One event of a repetition: gradient moment, duration, ADC usage flag and
ADC phase.  Packaging the per-event tensors as one list of records encodes
that all per-event tensors of a repetition share the event dimension. -/
structure Ev where
  gradm : Fin 3 → ℝ
  event_time : ℝ
  adc_usage : ℤ
  adc_phase : ℝ

/-- One repetition of the sequence. -/
structure Repetition where
  pulse : Pulse
  events : List Ev

/-- Default repetition used when indexing repetition lists. -/
def default_rep : Repetition := ⟨⟨0, 0, []⟩, []⟩

/-- The sequence: ordered repetitions plus the `normalized_grads` flag. -/
structure Sequence where
  reps : List Repetition
  normalized_grads : Bool

/-- Phantom and scanner data `SimData`, `n` voxels, `c` receive coils.
`B1` is the list of per-transmit-coil complex field maps (its length is the
transmit coil count `data.B1.shape[0]`). -/
structure SimData (n c : ℕ) where
  T1 : Fin n → ℝ
  T2 : Fin n → ℝ
  T2dash : Fin n → ℝ
  D : Fin n → ℝ
  B0 : Fin n → ℝ
  PD : Fin n → ℝ
  coil_sens : Fin c → Fin n → ℝ
  B1 : List (Fin n → ℂ)
  voxel_pos : Fin n → Fin 3 → ℝ
  size : Fin 3 → ℝ
  nyquist : Fin 3 → ℝ
  dephasing_func : (Fin 3 → ℝ) → (Fin 3 → ℝ) → Fin n → ℝ
  voxel_motion : Option (ℝ → Fin n → Fin 3 → ℝ)
  phantom_motion : Option (ℝ → ((Fin 3 → Fin 3 → ℝ) × (Fin 3 → ℝ)))

/-- Build a 4-vector from a spatial 3-vector and a time component. -/
def vec4 (k : Fin 3 → ℝ) (t : ℝ) : Fin 4 → ℝ :=
  fun i => if h : (i : ℕ) < 3 then k ⟨i, h⟩ else t

/-- The spatial (kx, ky, kz) part of a 4-vector. -/
def spatial (x : Fin 4 → ℝ) : Fin 3 → ℝ :=
  fun i => x i.castSucc

/-- The time (τ) component of a 4-vector. -/
def tau (x : Fin 4 → ℝ) : ℝ := x 3

/-- Inclusive prefix sums, `torch.cumsum` along the event dimension (inclusive prefix sums). -/
def cumsum {α : Type} [AddCommMonoid α] : List α → List α
  | [] => []
  | x :: xs => x :: (cumsum xs).map (fun y => x + y)

/-- Boolean-mask indexing `xs[mask]` along the event dimension. -/
def apply_mask {α : Type} : List Bool → List α → List α
  | b :: bs, x :: xs => if b then x :: apply_mask bs xs else apply_mask bs xs
  | _, _ => []

/-- Function `rigid_motion` (main_pass.py line 15): turns a rigid rotation+offset
function of time into a voxel-position function of time,
`pos ↦ pos ⬝ rot + offset` (the einsum `"vi, eij -> evj"` per event). -/
def rigid_motion {n : ℕ} (voxel_pos : Fin n → Fin 3 → ℝ)
    (motion_func : ℝ → ((Fin 3 → Fin 3 → ℝ) × (Fin 3 → ℝ))) :
    ℝ → Fin n → Fin 3 → ℝ :=
  fun time v j =>
    (∑ i : Fin 3, voxel_pos v i * (motion_func time).1 i j) + (motion_func time).2 j

/-- Lines 91–93: the voxel-position-over-time function, if any: an explicit
`voxel_motion`, else `rigid_motion` applied to `phantom_motion`, else none
(static phantom). -/
def voxel_pos_func {n c : ℕ} (data : SimData n c) : Option (ℝ → Fin n → Fin 3 → ℝ) :=
  match data.voxel_motion with
  | some f => some f
  | none =>
    match data.phantom_motion with
    | some mf => some (rigid_motion data.voxel_pos mf)
    | none => none

/-- Lines 102–104: proton density baked into the coil sensitivities,
`coil_sens.t().to(cfloat) * |PD|`, indexed voxel × coil. -/
noncomputable def coil_sensitivity {n c : ℕ} (data : SimData n c) : Fin n → Fin c → ℂ :=
  fun v cc => ((data.coil_sens cc v : ℝ) : ℂ) * ((|data.PD v| : ℝ) : ℂ)

/-- Lines 131–136: the combined B1 map.  One shim row (`1Tx`) sums the coil
fields; otherwise (`pTx`) the shim row count must equal the transmit coil
count (the Python `assert`), and the fields are summed weighted by
`shim = amplitude * exp(-i phase)`. -/
noncomputable def combined_B1 {n : ℕ} (shim_array : List (ℝ × ℝ))
    (B1 : List (Fin n → ℂ)) : Except String (Fin n → ℂ) :=
  if shim_array.length = 1 then
    .ok (fun v => (B1.map (fun b => b v)).sum)
  else if shim_array.length = B1.length then
    .ok (fun v =>
      (List.zipWith (fun s b => ((s.1 : ℝ) : ℂ) * Complex.exp (-Complex.I * (s.2 : ℝ)) * b v)
        shim_array B1).sum)
  else
    .error "assert shim_array.shape[0] == data.B1.shape[0]"

/-- The six RF transition coefficients of one repetition (per voxel). -/
structure Coeffs (n : ℕ) where
  z_to_z : Fin n → ℝ
  p_to_p : Fin n → ℝ
  z_to_p : Fin n → ℂ
  p_to_z : Fin n → ℂ
  m_to_z : Fin n → ℂ
  m_to_p : Fin n → ℂ

/-- Lines 142–153: the RF rotation coefficients.  The pulse angle is scaled
by `|B1|` and the phase shifted by `arg B1` per voxel, then the six
coefficients are built exactly as in the source (note the decimal literal
`0.70710678118` of line 149). -/
noncomputable def rf_coeffs {n : ℕ} (angle phase : ℝ) (B1 : Fin n → ℂ) : Coeffs n :=
  let a : Fin n → ℝ := fun v => angle * Complex.abs (B1 v)
  let ph : Fin n → ℝ := fun v => phase + Complex.arg (B1 v)
  let zz : Fin n → ℝ := fun v => Real.cos (a v)
  let pp : Fin n → ℝ := fun v => Real.cos (a v / 2) ^ 2
  let zp : Fin n → ℂ := fun v =>
    -(0.70710678118 : ℂ) * Complex.I * ((Real.sin (a v) : ℝ) : ℂ)
      * Complex.exp (Complex.I * ((ph v : ℝ) : ℂ))
  { z_to_z := zz
    p_to_p := pp
    z_to_p := zp
    p_to_z := fun v => -(starRingEnd ℂ) (zp v)
    m_to_z := fun v => -(zp v)
    m_to_p := fun v => ((1 - pp v : ℝ) : ℂ) * Complex.exp (2 * Complex.I * ((ph v : ℝ) : ℂ)) }

/-- Lines 155–169: `calc_mag`, dispatching on the transition label string.
An unknown label raises `ValueError(f"Unknown transform {...}")`. -/
noncomputable def calc_mag {n : ℕ} (co : Coeffs n) (label : String)
    (parent_mag : Fin n → ℂ) : Except String (Fin n → ℂ) :=
  if label = "zz" then .ok (fun v => parent_mag v * ((co.z_to_z v : ℝ) : ℂ))
  else if label = "++" then .ok (fun v => parent_mag v * ((co.p_to_p v : ℝ) : ℂ))
  else if label = "z+" then .ok (fun v => parent_mag v * co.z_to_p v)
  else if label = "+z" then .ok (fun v => parent_mag v * co.p_to_z v)
  else if label = "-z" then .ok (fun v => (starRingEnd ℂ) (parent_mag v) * co.m_to_z v)
  else if label = "-+" then .ok (fun v => (starRingEnd ℂ) (parent_mag v) * co.m_to_p v)
  else .error ("Unknown transform " ++ label)

/-- Line 236: `sum([calc_mag(ancestor) for ancestor in ancestors])`, where
Python's `sum` of an empty list is `0`.  The first raised error aborts. -/
noncomputable def sum_calc_mag {n : ℕ} (co : Coeffs n) :
    List (String × (Fin n → ℂ)) → Except String (Fin n → ℂ)
  | [] => .ok 0
  | a :: rest =>
    match calc_mag co a.1 a.2 with
    | .error e => .error e
    | .ok m =>
      match sum_calc_mag co rest with
      | .error e => .error e
      | .ok r => .ok (m + r)

/-- Line 96–98: `grad_scale`, `1/size` when gradients are normalized, else 1. -/
noncomputable def grad_scale_of {n c : ℕ} (seq : Sequence) (data : SimData n c) : Fin 3 → ℝ :=
  if seq.normalized_grads then fun i => 1 / data.size i else fun _ => 1

/-- Lines 188–190: the per-event cumulative (kx, ky, kz, τ) trajectory of the
repetition, `cumsum(cat([gradm * grad_scale, event_time], 1), 0)`. -/
noncomputable def trajectory (grad_scale : Fin 3 → ℝ) (events : List Ev) :
    List (Fin 4 → ℝ) :=
  cumsum (events.map (fun e => vec4 (fun i => e.gradm i * grad_scale i) e.event_time))

/-- Line 193: `total_time = rep.event_time.sum()`. -/
def rep_total_time (rep : Repetition) : ℝ := (rep.events.map Ev.event_time).sum

/-- The ADC mask of line 172: `rep.adc_usage > 0`, one Bool per event. -/
def adc_mask (events : List Ev) : List Bool :=
  events.map (fun e => decide (0 < e.adc_usage))

/-- Number of measured (ADC-active) events of a repetition. -/
def adc_count (rep : Repetition) : ℕ :=
  rep.events.countP (fun e => decide (0 < e.adc_usage))

/-- Lines 287–316: the per-event cumulative diffusion attenuation of one
distribution.  `k2` is the spatial k-position at event ends (the spatial part
of `dist_traj`), `k1` the position at event starts, the b-value increment is
`1/3 (2π)² dt (k1² + k1 k2 + k2²)` summed over the spatial axes, and the
attenuation is `exp(-1e-9 · D · cumsum b)` per voxel. -/
noncomputable def dist_diffusion {n : ℕ} (D : Fin n → ℝ) (kt0 : Fin 4 → ℝ)
    (dist_traj : List (Fin 4 → ℝ)) (dt : List ℝ) : List (Fin n → ℝ) :=
  let k2 := dist_traj.map spatial
  let k1 := spatial kt0 :: k2.dropLast
  let b := List.zipWith
    (fun d p => 1 / 3 * (2 * Real.pi) ^ 2 * d *
      (∑ i : Fin 3, (p.1 i ^ 2 + p.1 i * p.2 i + p.2 i ^ 2)))
    dt (k1.zip k2)
  (cumsum b).map (fun cb => fun v => Real.exp (-1e-9 * D v * cb))

/-- Lines 200–214: the per-event cumulative motion-induced phase: voxel
displacement at the event midpoint (relative to the static position) dotted
with the scaled gradient moment, prefix-summed over events. -/
noncomputable def motion_phase_list {n : ℕ} (f : ℝ → Fin n → Fin 3 → ℝ)
    (voxel_pos : Fin n → Fin 3 → ℝ) (grad_scale : Fin 3 → ℝ) (t0 : ℝ)
    (events : List Ev) (traj : List (Fin 4 → ℝ)) : List (Fin n → ℝ) :=
  let times : List ℝ := t0 :: traj.map (fun x => t0 + tau x)
  let mids := List.zipWith (fun a b => (a + b) / 2) times times.tail
  cumsum (List.zipWith
    (fun m e => fun v => ∑ i : Fin 3, (f m v i - voxel_pos v i) * (e.gradm i * grad_scale i))
    mids events)

/-- The complex rotation of lines 356–364 at one event for one voxel:
`exp(2i π (τ·B0 + k·pos + motion_phase))`. -/
noncomputable def signal_rot (B0v : ℝ) (posv : Fin 3 → ℝ) (kt : Fin 4 → ℝ)
    (mot : ℝ) : ℂ :=
  Complex.exp (2 * Complex.I * ((Real.pi : ℝ) : ℂ) *
    (((tau kt * B0v + (∑ i : Fin 3, spatial kt i * posv i) + mot : ℝ) : ℂ)))

/-- Lines 345–379 (before the ADC mask): the transverse magnetization of one
`"+"` distribution at every event,
`1.41421356237 * mag * rot * T2 * T2dash * diffusion * dephasing`.
`T2` decay uses the repetition-relative trajectory time, `T2dash` the
absolute dist-trajectory time (T2' dephasing), and `dephasing` is the
voxel-shape factor `dephasing_func(k, nyquist)`.  The source masks each
factor by `adc` before multiplying; multiplying first and masking once after
is the same pointwise product (cf. the source NOTE at lines 333–339). -/
noncomputable def transverse_rows {n c : ℕ} (data : SimData n c) (mag0 : Fin n → ℂ)
    (traj dist_traj : List (Fin 4 → ℝ)) (diffusion motl : List (Fin n → ℝ)) :
    List (Fin n → ℂ) :=
  List.zipWith
    (fun (tp : (Fin 4 → ℝ) × (Fin 4 → ℝ)) (dm : (Fin n → ℝ) × (Fin n → ℝ)) => fun v =>
      (1.41421356237 : ℂ) * mag0 v
        * signal_rot (data.B0 v) (data.voxel_pos v) tp.2 (dm.2 v)
        * ((Real.exp (-(tau tp.1) / |data.T2 v|) : ℝ) : ℂ)
        * ((Real.exp (-|tau tp.2| / |data.T2dash v|) : ℝ) : ℂ)
        * ((dm.1 v : ℝ) : ℂ)
        * ((data.dephasing_func (spatial tp.2) data.nyquist v : ℝ) : ℂ))
    (traj.zip dist_traj) (diffusion.zip motl)

/-- Lines 259–264: the recomputed `kt_vec`: zero for `"z0"` states, the
negated first surviving ancestor's `kt_vec` if its label is `"-+"` or
`"-z"`, otherwise that `kt_vec` unchanged. -/
def kt_update {n : ℕ} (dist_type : DistType) (anc : List (String × State n)) :
    Fin 4 → ℝ :=
  if dist_type = DistType.z0 then fun _ => 0
  else
    let h := anc.headD ("", default_state n)
    if h.1 = "-+" ∨ h.1 = "-z" then fun i => -(h.2.kt_vec i) else h.2.kt_vec

/-- Lines 226–229: the ancestors whose magnetization was simulated
(`edge[1].mag is not None`), paired with their label. -/
def surviving_ancestors {n : ℕ} (prev : List (State n)) (dist : PyDistribution n) :
    List (String × State n) :=
  (dist.ancestors.map (fun e => (e.1, prev.getD e.2 (default_state n)))).filter
    (fun p => p.2.mag.isSome)

/-- Lines 393–404: the end-of-repetition carry-over.  A `"+"` state decays by
`r2 = exp(-total_time/|T2|)` and the cumulative diffusion of the last event,
is rotated by the final motion phase when motion is simulated, and its
`kt_vec` advances to the last trajectory entry; a longitudinal state decays
by `r1 = exp(-total_time/|T1|)` and `exp(-1e-9 · D · total_time · k²)` with
`k` the norm of its current spatial k-vector; `"z0"` additionally regrows by
`1 - r1`. -/
noncomputable def carry_over {n : ℕ} (T1 T2 D : Fin n → ℝ) (total_time : ℝ)
    (dist_type : DistType) (mag0 : Fin n → ℂ) (kt0 : Fin 4 → ℝ)
    (dist_traj : List (Fin 4 → ℝ)) (diffusion : List (Fin n → ℝ))
    (mot_last : Option (Fin n → ℝ)) : (Fin n → ℂ) × (Fin 4 → ℝ) :=
  let r1 : Fin n → ℝ := fun v => Real.exp (-total_time / |T1 v|)
  let r2 : Fin n → ℝ := fun v => Real.exp (-total_time / |T2 v|)
  if dist_type = DistType.plus then
    let dlast := diffusion.getLastD (fun _ => 1)
    let m1 : Fin n → ℂ := fun v => mag0 v * ((r2 v : ℝ) : ℂ) * ((dlast v : ℝ) : ℂ)
    let m2 : Fin n → ℂ :=
      match mot_last with
      | some mp => fun v =>
        m1 v * Complex.exp (2 * Complex.I * ((Real.pi : ℝ) : ℂ) * ((mp v : ℝ) : ℂ))
      | none => m1
    (m2, dist_traj.getLastD kt0)
  else
    let k := Real.sqrt (∑ i : Fin 3, kt0 i.castSucc ^ 2)
    let dif : Fin n → ℝ := fun v => Real.exp (-1e-9 * D v * total_time * k ^ 2)
    let m : Fin n → ℂ := fun v => mag0 v * ((r1 v : ℝ) : ℂ) * ((dif v : ℝ) : ℂ)
    if dist_type = DistType.z0 then
      (fun v => m v + 1 - ((r1 v : ℝ) : ℂ), kt0)
    else (m, kt0)

/-- The per-repetition quantities computed once before the loop over
distributions (lines 126–215): RF coefficients, trajectory, event durations,
ADC mask, optional motion phase and total repetition time. -/
structure RepCtx (n : ℕ) where
  co : Coeffs n
  traj : List (Fin 4 → ℝ)
  dt : List ℝ
  adc : List Bool
  mot : Option (List (Fin n → ℝ))
  total_time : ℝ

/-- Well-formedness of a repetition context: all per-event lists have the
event count `E` as length. -/
def ctx_wf {n : ℕ} (ctx : RepCtx n) (E : ℕ) : Prop :=
  ctx.traj.length = E ∧ ctx.dt.length = E ∧ ctx.adc.length = E
  ∧ ∀ mp, ctx.mot = some mp → mp.length = E

/-- Lines 225–404: processing of one distribution of the current repetition.
Filters the ancestors, applies the two pruning rules (non-`"z0"` states below
the latent threshold or with no simulated ancestors are skipped with no
magnetization and no signal), otherwise sums the RF-split contributions,
recomputes `kt_vec`, computes the measured-signal rows for `"+"` states above
the emitted threshold (zero rows otherwise), and applies the end-of-repetition
carry-over.  Returns the node's new state and its rows of the repetition
signal (one row per ADC-active event, one column per coil). -/
noncomputable def sim_dist {n c : ℕ} (data : SimData n c) (ctx : RepCtx n)
    (min_emitted min_latent : ℝ) (prev : List (State n)) (dist : PyDistribution n) :
    Except String (State n × List (Fin c → ℂ)) :=
  let anc := surviving_ancestors prev dist
  if dist.dist_type ≠ DistType.z0 ∧ dist.latent_signal < min_latent then
    .ok (⟨none, dist.kt_vec⟩, List.replicate (ctx.adc.count true) 0)
  else if dist.dist_type ≠ DistType.z0 ∧ anc.length = 0 then
    .ok (⟨none, dist.kt_vec⟩, List.replicate (ctx.adc.count true) 0)
  else
    match sum_calc_mag ctx.co (anc.map (fun p => (p.1, p.2.mag.getD 0))) with
    | .error e => .error e
    | .ok mag0 =>
      let kt0 := kt_update dist.dist_type anc
      let dist_traj := ctx.traj.map (fun x => fun i => kt0 i + x i)
      let diffusion := dist_diffusion data.D kt0 dist_traj ctx.dt
      let motl : List (Fin n → ℝ) :=
        match ctx.mot with
        | some mp => mp
        | none => List.replicate ctx.traj.length 0
      let rows : List (Fin c → ℂ) :=
        if dist.dist_type = DistType.plus ∧ min_emitted ≤ dist.emitted_signal then
          (apply_mask ctx.adc (transverse_rows data mag0 ctx.traj dist_traj diffusion motl)).map
            (fun row => fun cc => ∑ v : Fin n, row v * coil_sensitivity data v cc)
        else List.replicate (ctx.adc.count true) 0
      let cov := carry_over data.T1 data.T2 data.D ctx.total_time dist.dist_type mag0 kt0
        dist_traj diffusion (ctx.mot.map (fun mp => mp.getLastD 0))
      .ok (⟨some cov.1, cov.2⟩, rows)

/-- The loop of line 225 over the distributions of one repetition: evaluates
each node against the (fixed) states of the previous repetition and
accumulates the repetition signal, starting from the zero matrix of line
173. -/
noncomputable def sim_dists {n c : ℕ} (data : SimData n c) (ctx : RepCtx n)
    (min_emitted min_latent : ℝ) (prev : List (State n)) :
    List (PyDistribution n) → Except String (List (State n) × List (Fin c → ℂ))
  | [] => .ok ([], List.replicate (ctx.adc.count true) 0)
  | d :: ds =>
    match sim_dist data ctx min_emitted min_latent prev d with
    | .error e => .error e
    | .ok (st, rows) =>
      match sim_dists data ctx min_emitted min_latent prev ds with
      | .error e => .error e
      | .ok (sts, sig) => .ok (st :: sts, List.zipWith (fun a b => a + b) rows sig)

/-- The per-repetition context of lines 126–215: RF coefficients at the
combined B1 map, trajectory, event durations, ADC mask, optional motion
phase list and total repetition time. -/
noncomputable def mk_ctx {n c : ℕ} (data : SimData n c) (grad_scale : Fin 3 → ℝ)
    (t0 : ℝ) (B1 : Fin n → ℂ) (rep : Repetition) : RepCtx n :=
  { co := rf_coeffs rep.pulse.angle rep.pulse.phase B1
    traj := trajectory grad_scale rep.events
    dt := rep.events.map Ev.event_time
    adc := adc_mask rep.events
    mot := (voxel_pos_func data).map
      (fun f => motion_phase_list f data.voxel_pos grad_scale t0 rep.events
        (trajectory grad_scale rep.events))
    total_time := rep_total_time rep }

/-- One iteration of the loop over TRs (lines 122–443): combined B1 and RF
coefficients, trajectory, motion phase, the loop over distributions, and the
final per-repetition signal `rep_sig * adc_rot[adc]` with
`adc_rot = exp(1j * adc_phase)`. -/
noncomputable def sim_rep {n c : ℕ} (data : SimData n c) (grad_scale : Fin 3 → ℝ)
    (min_emitted min_latent : ℝ) (t0 : ℝ) (prev : List (State n))
    (dists : List (PyDistribution n)) (rep : Repetition) :
    Except String (List (State n) × List (Fin c → ℂ)) :=
  match combined_B1 rep.pulse.shim_array data.B1 with
  | .error e => .error e
  | .ok B1 =>
    match sim_dists data (mk_ctx data grad_scale t0 B1 rep) min_emitted min_latent prev dists with
    | .error e => .error e
    | .ok (sts, rep_sig) =>
      .ok (sts, List.zipWith (fun row r => fun cc => row cc * r) rep_sig
        (apply_mask (adc_mask rep.events)
          (rep.events.map (fun e => Complex.exp (Complex.I * ((e.adc_phase : ℝ) : ℂ))))))

/-- The loop over TRs: threads the previous repetition's states and the
accumulated start time `t0` (line 215) through the zipped
(graph repetition, sequence repetition) pairs, collecting every repetition's
states and signal segment. -/
noncomputable def run_reps {n c : ℕ} (data : SimData n c) (grad_scale : Fin 3 → ℝ)
    (min_emitted min_latent : ℝ) :
    ℝ → List (State n) → List (List (PyDistribution n) × Repetition) →
    Except String (List (List (State n)) × List (List (Fin c → ℂ)))
  | _, _, [] => .ok ([], [])
  | t0, prev, (dists, rep) :: rest =>
    match sim_rep data grad_scale min_emitted min_latent t0 prev dists rep with
    | .error e => .error e
    | .ok (sts, sig) =>
      match run_reps data grad_scale min_emitted min_latent (t0 + rep_total_time rep) sts rest with
      | .error e => .error e
      | .ok (stss, sigs) => .ok (sts :: stss, sig :: sigs)

/-- The main pass `execute_graph` (line 28): seeds the equilibrium state of repetition 0
(magnetization 1 per voxel, or the injected `intitial_mag`; `kt_vec = 0`),
pairs `graph[1:]` with the sequence repetitions, runs the loop over TRs and
concatenates the per-repetition signal segments.  Nodes of `graph[0]` other
than the seed have no simulated magnetization. -/
noncomputable def execute_graph {n c : ℕ} (graph : List (List (PyDistribution n)))
    (seq : Sequence) (data : SimData n c) (min_emitted_signal min_latent_signal : ℝ)
    (intitial_mag : Option (Fin n → ℂ)) : Except String (List (Fin c → ℂ)) :=
  let seed : State n := ⟨some (intitial_mag.getD (fun _ => 1)), fun _ => 0⟩
  let prev0 : List (State n) :=
    match graph.headD [] with
    | [] => []
    | _ :: rest => seed :: rest.map (fun d => ⟨none, d.kt_vec⟩)
  match run_reps data (grad_scale_of seq data) min_emitted_signal min_latent_signal
      0 prev0 ((graph.drop 1).zip seq.reps) with
  | .error e => .error e
  | .ok (_, sigs) => .ok sigs.flatten

/-! ## Spec-side comparator definitions (refinement claims)

These follow the wording of the specification, to be compared with the
definitions translated from the source. -/

/-- Spec §4.2 / claim C1, following the spec's words: "combined B1 = Σ over
coils of (transmit field × shim weight) when more than one shim channel is
active, or the field sum otherwise". -/
noncomputable def combined_B1_spec {n : ℕ} (shim_array : List (ℝ × ℝ))
    (B1 : List (Fin n → ℂ)) : Fin n → ℂ :=
  if 1 < shim_array.length then
    fun v =>
      (List.zipWith (fun s b => ((s.1 : ℝ) : ℂ) * Complex.exp (-Complex.I * (s.2 : ℝ)) * b v)
        shim_array B1).sum
  else fun v => (B1.map (fun b => b v)).sum

/-- Claim C1's six coefficient formulas, following the claim's words with the
exact constant `1/√2`: `z_to_z = cos(angle)`, `p_to_p = cos(angle/2)²`,
`z_to_p = -(1/√2)·i·sin(angle)·exp(iφ)`, `p_to_z = -conj(z_to_p)`,
`m_to_z = -z_to_p`, `m_to_p = (1 - p_to_p)·exp(2iφ)`, at the effective angle
`angle·|B1|` and effective phase `phase + arg B1`. -/
noncomputable def rf_coeffs_spec {n : ℕ} (angle phase : ℝ) (B1 : Fin n → ℂ) : Coeffs n :=
  let a : Fin n → ℝ := fun v => angle * Complex.abs (B1 v)
  let ph : Fin n → ℝ := fun v => phase + Complex.arg (B1 v)
  let zp : Fin n → ℂ := fun v =>
    -(((1 / Real.sqrt 2 : ℝ) : ℂ)) * Complex.I * ((Real.sin (a v) : ℝ) : ℂ)
      * Complex.exp (Complex.I * ((ph v : ℝ) : ℂ))
  { z_to_z := fun v => Real.cos (a v)
    p_to_p := fun v => Real.cos (a v / 2) ^ 2
    z_to_p := zp
    p_to_z := fun v => -(starRingEnd ℂ) (zp v)
    m_to_z := fun v => -(zp v)
    m_to_p := fun v => ((1 - Real.cos (a v / 2) ^ 2 : ℝ) : ℂ)
      * Complex.exp (2 * Complex.I * ((ph v : ℝ) : ℂ)) }

/-- Claim C2's description of the magnetization of an evaluated node,
following the spec's words: the sum over the surviving ancestors of the
parent magnetization (conjugated for the reversing labels `-z`, `-+`) times
the coefficient matching the label. -/
noncomputable def spec_mixed_mag {n : ℕ} (co : Coeffs n)
    (anc : List (String × (Fin n → ℂ))) : Fin n → ℂ :=
  (anc.map (fun p =>
    if p.1 = "zz" then fun v => p.2 v * ((co.z_to_z v : ℝ) : ℂ)
    else if p.1 = "++" then fun v => p.2 v * ((co.p_to_p v : ℝ) : ℂ)
    else if p.1 = "z+" then fun v => p.2 v * co.z_to_p v
    else if p.1 = "+z" then fun v => p.2 v * co.p_to_z v
    else if p.1 = "-z" then fun v => (starRingEnd ℂ) (p.2 v) * co.m_to_z v
    else if p.1 = "-+" then fun v => (starRingEnd ℂ) (p.2 v) * co.m_to_p v
    else 0)).sum

/-! ## Concrete inputs for witnesses and counterexamples -/

/-- A one-voxel, one-coil, one-transmit-channel phantom with unit tissue
parameters and no motion model. -/
noncomputable def dataA : SimData 1 1 :=
  { T1 := fun _ => 1
    T2 := fun _ => 1
    T2dash := fun _ => 1
    D := fun _ => 0
    B0 := fun _ => 0
    PD := fun _ => 1
    coil_sens := fun _ _ => 1
    B1 := [fun _ => 1]
    voxel_pos := fun _ _ => 0
    size := fun _ => 1
    nyquist := fun _ => 1
    dephasing_func := fun _ _ _ => 1
    voxel_motion := none
    phantom_motion := none }

/-- A single event with zero gradient and duration and no ADC. -/
def evA : Ev := ⟨fun _ => 0, 0, 0, 0⟩

/-- A repetition with a zero pulse, a single-channel shim and one non-ADC
event. -/
def repA : Repetition := ⟨⟨0, 0, [(1, 0)]⟩, [evA]⟩

/-- A `"z0"` node with latent signal 0 (strictly below the default threshold
`1e-2`) and a `"zz"` edge from the seed node. -/
def distZ0 : PyDistribution 1 :=
  ⟨DistType.z0, fun _ => 0, 0, 0, [("zz", 0)]⟩

/-- A `"+"` node with latent signal 0 and a `"z+"` edge from the seed node. -/
def distP : PyDistribution 1 :=
  ⟨DistType.plus, fun _ => 0, 0, 0, [("z+", 0)]⟩

/-- The seeded equilibrium state of repetition 0. -/
noncomputable def seedState : State 1 := ⟨some (fun _ => 1), fun _ => 0⟩

/-- A one-element ancestor list with the `zz` label (witness input). -/
noncomputable def ancW : List (String × (Fin 1 → ℂ)) := [("zz", fun _ => 1)]

/-- The combined B1 map of a single-channel shim over a unit single-coil
field (witness input). -/
noncomputable def wB1 : Fin 1 → ℂ :=
  fun v => (([fun _ => 1] : List (Fin 1 → ℂ)).map (fun b => b v)).sum

/-- A repetition context with no events, used to witness per-distribution
claims. -/
noncomputable def ctxA : RepCtx 1 :=
  { co := rf_coeffs 0 0 (fun _ => 1)
    traj := []
    dt := []
    adc := []
    mot := none
    total_time := 0 }

/-! ## Helper lemmas -/

theorem cumsum_length {α : Type} [AddCommMonoid α] (l : List α) :
    (cumsum l).length = l.length := by
  induction l with
  | nil => rfl
  | cons x xs ih => simp [cumsum, ih]

theorem apply_mask_length {α : Type} (bs : List Bool) (xs : List α)
    (h : xs.length = bs.length) : (apply_mask bs xs).length = bs.count true := by
  induction bs generalizing xs with
  | nil => cases xs <;> simp_all [apply_mask]
  | cons b bs ih =>
    cases xs with
    | nil => simp at h
    | cons x xs =>
      simp only [List.length_cons, Nat.succ.injEq] at h
      cases b <;> simp [apply_mask, ih xs h, List.count_cons]

theorem trajectory_length (grad_scale : Fin 3 → ℝ) (events : List Ev) :
    (trajectory grad_scale events).length = events.length := by
  simp [trajectory, cumsum_length]

theorem dist_diffusion_length {n : ℕ} (D : Fin n → ℝ) (kt0 : Fin 4 → ℝ)
    (dist_traj : List (Fin 4 → ℝ)) (dt : List ℝ) (E : ℕ)
    (h1 : dist_traj.length = E) (h2 : dt.length = E) :
    (dist_diffusion D kt0 dist_traj dt).length = E := by
  simp only [dist_diffusion, List.length_map, cumsum_length, List.length_zipWith,
    List.length_zip, List.length_cons, List.length_dropLast, h1, h2]
  omega

theorem motion_phase_list_length {n : ℕ} (f : ℝ → Fin n → Fin 3 → ℝ)
    (voxel_pos : Fin n → Fin 3 → ℝ) (grad_scale : Fin 3 → ℝ) (t0 : ℝ)
    (events : List Ev) (traj : List (Fin 4 → ℝ)) (h : traj.length = events.length) :
    (motion_phase_list f voxel_pos grad_scale t0 events traj).length = events.length := by
  simp only [motion_phase_list, cumsum_length, List.length_zipWith, List.length_cons,
    List.length_map, List.length_tail, h]
  omega

theorem count_true_map_eq_countP {α : Type} (l : List α) (f : α → Bool) :
    (l.map f).count true = l.countP f := by
  induction l with
  | nil => rfl
  | cons a l ih => cases ha : f a <;> simp [List.count_cons, List.countP_cons, ha, ih]

theorem mk_ctx_wf {n c : ℕ} (data : SimData n c) (grad_scale : Fin 3 → ℝ)
    (t0 : ℝ) (B1 : Fin n → ℂ) (rep : Repetition) :
    ctx_wf (mk_ctx data grad_scale t0 B1 rep) rep.events.length := by
  refine ⟨trajectory_length _ _, by simp [mk_ctx], by simp [mk_ctx, adc_mask], ?_⟩
  intro mp hmp
  simp only [mk_ctx, Option.map_eq_some'] at hmp
  obtain ⟨f, _, rfl⟩ := hmp
  exact motion_phase_list_length f _ _ _ _ _ (trajectory_length _ _)

theorem transverse_rows_length {n c : ℕ} (data : SimData n c) (mag0 : Fin n → ℂ)
    (traj dist_traj : List (Fin 4 → ℝ)) (diffusion motl : List (Fin n → ℝ)) (E : ℕ)
    (h1 : traj.length = E) (h2 : dist_traj.length = E) (h3 : diffusion.length = E)
    (h4 : motl.length = E) :
    (transverse_rows data mag0 traj dist_traj diffusion motl).length = E := by
  simp [transverse_rows, List.length_zipWith, List.length_zip, h1, h2, h3, h4]

theorem surviving_ancestors_isSome {n : ℕ} (prev : List (State n))
    (dist : PyDistribution n) (p : String × State n)
    (hp : p ∈ surviving_ancestors prev dist) : p.2.mag.isSome = true := by
  unfold surviving_ancestors at hp
  exact (List.mem_filter.mp hp).2

theorem sim_dist_rows_length {n c : ℕ} (data : SimData n c) (ctx : RepCtx n)
    (me ml : ℝ) (prev : List (State n)) (dist : PyDistribution n) (E : ℕ)
    (hwf : ctx_wf ctx E) (st : State n) (rows : List (Fin c → ℂ))
    (hok : sim_dist data ctx me ml prev dist = .ok (st, rows)) :
    rows.length = ctx.adc.count true := by
  obtain ⟨ht, hd, ha, hm⟩ := hwf
  simp only [sim_dist] at hok
  by_cases h1 : dist.dist_type ≠ DistType.z0 ∧ dist.latent_signal < ml
  · rw [if_pos h1] at hok
    simp only [Except.ok.injEq, Prod.mk.injEq] at hok
    rw [← hok.2, List.length_replicate]
  · rw [if_neg h1] at hok
    by_cases h2 : dist.dist_type ≠ DistType.z0
      ∧ (surviving_ancestors prev dist).length = 0
    · rw [if_pos h2] at hok
      simp only [Except.ok.injEq, Prod.mk.injEq] at hok
      rw [← hok.2, List.length_replicate]
    · rw [if_neg h2] at hok
      cases hs : sum_calc_mag ctx.co
          ((surviving_ancestors prev dist).map (fun p => (p.1, p.2.mag.getD 0))) with
      | error e => rw [hs] at hok; exact absurd hok (by simp)
      | ok mag0 =>
        rw [hs] at hok
        simp only [Except.ok.injEq, Prod.mk.injEq] at hok
        rw [← hok.2]
        by_cases hp : dist.dist_type = DistType.plus ∧ me ≤ dist.emitted_signal
        · rw [if_pos hp, List.length_map]
          apply apply_mask_length
          rw [ha]
          refine transverse_rows_length data mag0 ctx.traj _ _ _ E ht
            (by rw [List.length_map, ht]) ?_ ?_
          · exact dist_diffusion_length data.D _ _ ctx.dt E
              (by rw [List.length_map, ht]) hd
          · cases hmot : ctx.mot with
            | none => simp [ht]
            | some mp => simpa using hm mp hmot
        · rw [if_neg hp, List.length_replicate]

/-- A non-`"z0"` node below the latent threshold or with no surviving
ancestor is skipped: no magnetization, pre-pass `kt_vec` kept, zero signal
rows. -/
theorem sim_dist_skip {n c : ℕ} (data : SimData n c) (ctx : RepCtx n)
    (me ml : ℝ) (prev : List (State n)) (dist : PyDistribution n)
    (h1 : dist.dist_type ≠ DistType.z0)
    (h2 : dist.latent_signal < ml ∨ surviving_ancestors prev dist = []) :
    sim_dist data ctx me ml prev dist
      = .ok (⟨none, dist.kt_vec⟩, List.replicate (ctx.adc.count true) 0) := by
  unfold sim_dist
  rcases h2 with h2 | h2
  · rw [if_pos ⟨h1, h2⟩]
  · by_cases hl : dist.latent_signal < ml
    · rw [if_pos ⟨h1, hl⟩]
    · rw [if_neg (by tauto), if_pos ⟨h1, by simp [h2]⟩]

theorem sim_dists_ok {n c : ℕ} (data : SimData n c) (ctx : RepCtx n)
    (me ml : ℝ) (prev : List (State n)) (E : ℕ) (hwf : ctx_wf ctx E) :
    ∀ (dists : List (PyDistribution n)) (sts : List (State n))
      (sig : List (Fin c → ℂ)),
    sim_dists data ctx me ml prev dists = .ok (sts, sig) →
    sts.length = dists.length ∧ sig.length = ctx.adc.count true
    ∧ ∀ j, j < dists.length →
        ∃ rows, sim_dist data ctx me ml prev (dists.getD j (default_dist n))
          = .ok (sts.getD j (default_state n), rows) := by
  intro dists
  induction dists with
  | nil =>
    intro sts sig hok
    simp only [sim_dists, Except.ok.injEq, Prod.mk.injEq] at hok
    refine ⟨by simp [← hok.1], by rw [← hok.2, List.length_replicate], ?_⟩
    intro j hj
    simp at hj
  | cons d ds ih =>
    intro sts sig hok
    simp only [sim_dists] at hok
    cases h1 : sim_dist data ctx me ml prev d with
    | error e => rw [h1] at hok; exact absurd hok (by simp)
    | ok p1 =>
      rw [h1] at hok
      cases h2 : sim_dists data ctx me ml prev ds with
      | error e => rw [h2] at hok; exact absurd hok (by simp)
      | ok p2 =>
        rw [h2] at hok
        obtain ⟨st, rows⟩ := p1
        obtain ⟨sts2, sig2⟩ := p2
        simp only [Except.ok.injEq, Prod.mk.injEq] at hok
        obtain ⟨hsts, hsig⟩ := hok
        obtain ⟨hlen2, hslen2, hidx2⟩ := ih sts2 sig2 h2
        have hrlen := sim_dist_rows_length data ctx me ml prev d E
          ⟨hwf.1, hwf.2.1, hwf.2.2.1, hwf.2.2.2⟩ st rows h1
        refine ⟨by rw [← hsts]; simp [hlen2], ?_, ?_⟩
        · rw [← hsig, List.length_zipWith, hrlen, hslen2]
          omega
        · intro j hj
          cases j with
          | zero => exact ⟨rows, by rw [← hsts]; exact h1⟩
          | succ j =>
            obtain ⟨rows2, hr2⟩ := hidx2 j (by simpa using hj)
            exact ⟨rows2, by rw [← hsts]; simpa using hr2⟩

theorem sim_rep_ok {n c : ℕ} (data : SimData n c) (grad_scale : Fin 3 → ℝ)
    (me ml t0 : ℝ) (prev : List (State n)) (dists : List (PyDistribution n))
    (rep : Repetition) (sts : List (State n)) (sig : List (Fin c → ℂ))
    (hok : sim_rep data grad_scale me ml t0 prev dists rep = .ok (sts, sig)) :
    ∃ B1 sigd, combined_B1 rep.pulse.shim_array data.B1 = .ok B1
      ∧ sim_dists data (mk_ctx data grad_scale t0 B1 rep) me ml prev dists
          = .ok (sts, sigd)
      ∧ sig.length = adc_count rep := by
  simp only [sim_rep] at hok
  split at hok
  · exact absurd hok (by simp)
  · rename_i B1 h1
    split at hok
    · exact absurd hok (by simp)
    · rename_i sts2 sigd h2
      simp only [Except.ok.injEq, Prod.mk.injEq] at hok
      obtain ⟨hsts, hsig⟩ := hok
      subst hsts
      refine ⟨B1, sigd, h1, h2, ?_⟩
      have hslen : sigd.length = (mk_ctx data grad_scale t0 B1 rep).adc.count true :=
        (sim_dists_ok data _ me ml prev rep.events.length
          (mk_ctx_wf data grad_scale t0 B1 rep) dists sts2 sigd h2).2.1
      have hmask : (apply_mask (adc_mask rep.events)
          (rep.events.map (fun e => Complex.exp (Complex.I * ((e.adc_phase : ℝ) : ℂ))))).length
          = (adc_mask rep.events).count true :=
        apply_mask_length _ _ (by simp [adc_mask])
      have hcnt : (adc_mask rep.events).count true = adc_count rep :=
        count_true_map_eq_countP rep.events _
      rw [← hsig, List.length_zipWith, hmask, hslen]
      simp only [mk_ctx, hcnt]
      omega

theorem run_reps_ok {n c : ℕ} (data : SimData n c) (gs : Fin 3 → ℝ) (me ml : ℝ) :
    ∀ (pairs : List (List (PyDistribution n) × Repetition)) (t0 : ℝ)
      (prev : List (State n)) (stss : List (List (State n)))
      (sigs : List (List (Fin c → ℂ))),
    run_reps data gs me ml t0 prev pairs = .ok (stss, sigs) →
    stss.length = pairs.length
    ∧ sigs.map List.length = pairs.map (fun pr => adc_count pr.2)
    ∧ ∀ i, i < pairs.length →
        ∃ t1 sig, sim_rep data gs me ml t1
          (if i = 0 then prev else stss.getD (i - 1) [])
          (pairs.getD i ([], default_rep)).1 (pairs.getD i ([], default_rep)).2
          = .ok (stss.getD i [], sig) := by
  intro pairs
  induction pairs with
  | nil =>
    intro t0 prev stss sigs hok
    simp only [run_reps, Except.ok.injEq, Prod.mk.injEq] at hok
    obtain ⟨h1, h2⟩ := hok
    refine ⟨by simp [← h1], by simp [← h2], ?_⟩
    intro i hi
    simp at hi
  | cons pr rest ih =>
    obtain ⟨dists, rep⟩ := pr
    intro t0 prev stss sigs hok
    simp only [run_reps] at hok
    split at hok
    · exact absurd hok (by simp)
    · rename_i sts sig h1
      split at hok
      · exact absurd hok (by simp)
      · rename_i stss2 sigs2 h2
        simp only [Except.ok.injEq, Prod.mk.injEq] at hok
        obtain ⟨hsts, hsigs⟩ := hok
        obtain ⟨hl2, hm2, hidx2⟩ := ih (t0 + rep_total_time rep) sts stss2 sigs2 h2
        obtain ⟨B1, sigd, hB1, hsd, hslen⟩ :=
          sim_rep_ok data gs me ml t0 prev dists rep sts sig h1
        refine ⟨by rw [← hsts]; simp [hl2], by rw [← hsigs]; simp [hslen, hm2], ?_⟩
        intro i hi
        cases i with
        | zero =>
          refine ⟨t0, sig, ?_⟩
          rw [← hsts]
          simpa using h1
        | succ i =>
          obtain ⟨t1, sig2, hs2⟩ := hidx2 i (by simpa using hi)
          refine ⟨t1, sig2, ?_⟩
          rw [← hsts]
          cases i with
          | zero => simpa using hs2
          | succ k => simpa using hs2

theorem sim_rep_skip_state {n c : ℕ} (data : SimData n c) (gs : Fin 3 → ℝ)
    (me ml t0 : ℝ) (prev : List (State n)) (dists : List (PyDistribution n))
    (rep : Repetition) (sts : List (State n)) (sig : List (Fin c → ℂ))
    (hok : sim_rep data gs me ml t0 prev dists rep = .ok (sts, sig))
    (j : ℕ) (hj : j < dists.length)
    (h1 : (dists.getD j (default_dist n)).dist_type ≠ DistType.z0)
    (h2 : (dists.getD j (default_dist n)).latent_signal < ml
      ∨ surviving_ancestors prev (dists.getD j (default_dist n)) = []) :
    (sts.getD j (default_state n)).mag = none := by
  obtain ⟨B1, sigd, hB1, hsd, -⟩ := sim_rep_ok data gs me ml t0 prev dists rep sts sig hok
  obtain ⟨-, -, hidx⟩ := sim_dists_ok data _ me ml prev rep.events.length
    (mk_ctx_wf data gs t0 B1 rep) dists sts sigd hsd
  obtain ⟨rows, hr⟩ := hidx j hj
  rw [sim_dist_skip data _ me ml prev _ h1 h2] at hr
  have hst : (⟨none, (dists.getD j (default_dist n)).kt_vec⟩ : State n)
      = sts.getD j (default_state n) := congrArg Prod.fst (Except.ok.inj hr)
  rw [← hst]

/-! ## Claim theorems -/

/-- C5: for every evaluated node, the recomputed `k_tau` is zero for
equilibrium nodes, the negation of the first surviving ancestor's `k_tau`
when that ancestor's label is `-+` or `-z`, and an unchanged copy of it
otherwise; only the first surviving ancestor's k-state is used. -/
theorem C5_kt_update {n : ℕ} (anc : List (String × State n)) (dt : DistType)
    (label : String) (st : State n) (rest rest2 : List (String × State n)) :
    (kt_update DistType.z0 anc = fun _ => 0)
    ∧ (dt ≠ DistType.z0 → (label = "-+" ∨ label = "-z") →
        kt_update dt ((label, st) :: rest) = fun i => -(st.kt_vec i))
    ∧ (dt ≠ DistType.z0 → ¬(label = "-+" ∨ label = "-z") →
        kt_update dt ((label, st) :: rest) = st.kt_vec)
    ∧ kt_update dt ((label, st) :: rest) = kt_update dt ((label, st) :: rest2) := by
  refine ⟨by simp [kt_update], fun h hl => ?_, fun h hl => ?_, ?_⟩
  · simp [kt_update, h, hl]
  · simp [kt_update, h, hl]
  · by_cases h : dt = DistType.z0 <;> simp [kt_update, h]

/-- Witness for C5 at a concrete reversing first ancestor. -/
theorem C5_kt_update_witness :
    (DistType.plus ≠ DistType.z0 ∧ (("-+" : String) = "-+" ∨ ("-+" : String) = "-z"))
    ∧ kt_update DistType.plus [("-+", seedState)] = fun i => -(seedState.kt_vec i) :=
  ⟨⟨by decide, Or.inl rfl⟩,
    (C5_kt_update [] DistType.plus "-+" seedState [] []).2.1 (by decide) (Or.inl rfl)⟩

/-- C2: for every evaluated node, its magnetization is the sum over the
surviving ancestors of the parent magnetization times the coefficient
matching the label for `zz`, `++`, `z+`, `+z`, and of the conjugated parent
magnetization times the matching coefficient for `-z`, `-+` — i.e. the
source's `sum([calc_mag(ancestor) ...])` refines the spec's description
whenever all labels are recognized. -/
theorem C2_sum_calc_mag {n : ℕ} (co : Coeffs n) (anc : List (String × (Fin n → ℂ)))
    (h : ∀ p ∈ anc, p.1 = "zz" ∨ p.1 = "++" ∨ p.1 = "z+" ∨ p.1 = "+z"
      ∨ p.1 = "-z" ∨ p.1 = "-+") :
    sum_calc_mag co anc = .ok (spec_mixed_mag co anc) := by
  induction anc with
  | nil => simp [sum_calc_mag, spec_mixed_mag]
  | cons a rest ih =>
    have ha := h a (List.mem_cons_self a rest)
    have hrest := ih (fun p hp => h p (List.mem_cons_of_mem a hp))
    rcases ha with h1 | h1 | h1 | h1 | h1 | h1 <;>
      simp [sum_calc_mag, calc_mag, spec_mixed_mag, h1, hrest, add_comm]

/-- Witness for C2 at a one-element ancestor list with label `zz`. -/
theorem C2_sum_calc_mag_witness :
    (∀ p ∈ ancW, p.1 = "zz" ∨ p.1 = "++" ∨ p.1 = "z+" ∨ p.1 = "+z"
      ∨ p.1 = "-z" ∨ p.1 = "-+")
    ∧ sum_calc_mag (rf_coeffs 0 0 (fun _ => 1)) ancW
      = .ok (spec_mixed_mag (rf_coeffs 0 0 (fun _ => 1)) ancW) :=
  ⟨by intro p hp; rw [List.mem_singleton.mp hp]; exact Or.inl rfl,
    C2_sum_calc_mag _ ancW
      (by intro p hp; rw [List.mem_singleton.mp hp]; exact Or.inl rfl)⟩

/-- C9: an unrecognized transition label makes `calc_mag` raise
`ValueError("Unknown transform ...")`, a shim array whose channel count is
neither 1 nor the transmit-coil count fails the `assert`, both surface as
errors of the whole repetition step (no partial result), and a label error
inside the ancestor sum also aborts it. -/
theorem C9_fatal_errors :
    (∀ (n : ℕ) (co : Coeffs n) (label : String) (m : Fin n → ℂ),
      label ∉ (["zz", "++", "z+", "+z", "-z", "-+"] : List String) →
      calc_mag co label m = .error ("Unknown transform " ++ label))
    ∧ (∀ (n : ℕ) (shim : List (ℝ × ℝ)) (B1 : List (Fin n → ℂ)),
        shim.length ≠ 1 → shim.length ≠ B1.length →
        combined_B1 shim B1 = .error "assert shim_array.shape[0] == data.B1.shape[0]")
    ∧ (∀ (n c : ℕ) (data : SimData n c) (gs : Fin 3 → ℝ) (me ml t0 : ℝ)
        (prev : List (State n)) (dists : List (PyDistribution n)) (rep : Repetition)
        (e : String), combined_B1 rep.pulse.shim_array data.B1 = .error e →
        sim_rep data gs me ml t0 prev dists rep = .error e)
    ∧ (∀ (n : ℕ) (co : Coeffs n) (anc : List (String × (Fin n → ℂ))),
        (∃ p ∈ anc, p.1 ∉ (["zz", "++", "z+", "+z", "-z", "-+"] : List String)) →
        ∃ e, sum_calc_mag co anc = .error e) := by
  refine ⟨?_, ?_, ?_, ?_⟩
  · intro n co label m h
    simp only [List.mem_cons, List.not_mem_nil, or_false, not_or] at h
    obtain ⟨h1, h2, h3, h4, h5, h6⟩ := h
    simp [calc_mag, h1, h2, h3, h4, h5, h6]
  · intro n shim B1 h1 h2
    simp [combined_B1, h1, h2]
  · intro n c data gs me ml t0 prev dists rep e h
    simp [sim_rep, h]
  · intro n co anc h
    induction anc with
    | nil => simp at h
    | cons a rest ih =>
      rcases h with ⟨p, hp, hlab⟩
      rcases List.mem_cons.mp hp with rfl | hp2
      · simp only [List.mem_cons, List.not_mem_nil, or_false, not_or] at hlab
        obtain ⟨h1, h2, h3, h4, h5, h6⟩ := hlab
        exact ⟨"Unknown transform " ++ p.1,
          by simp [sum_calc_mag, calc_mag, h1, h2, h3, h4, h5, h6]⟩
      · obtain ⟨e, he⟩ := ih ⟨p, hp2, hlab⟩
        by_cases hc : ∃ m, calc_mag co a.1 a.2 = .ok m
        · obtain ⟨m, hm⟩ := hc
          exact ⟨e, by simp [sum_calc_mag, hm, he]⟩
        · have : ∃ e2, calc_mag co a.1 a.2 = .error e2 := by
            cases hcm : calc_mag co a.1 a.2 with
            | ok m => exact absurd ⟨m, hcm⟩ hc
            | error e2 => exact ⟨e2, rfl⟩
          obtain ⟨e2, he2⟩ := this
          exact ⟨e2, by simp [sum_calc_mag, he2]⟩

/-- Witness for C9: the label `xx` and a 2-channel shim against a 1-coil
field map. -/
theorem C9_fatal_errors_witness :
    (("xx" : String) ∉ (["zz", "++", "z+", "+z", "-z", "-+"] : List String)
      ∧ calc_mag (rf_coeffs 0 0 (fun _ : Fin 1 => 1)) "xx" (fun _ => 1)
        = .error ("Unknown transform " ++ "xx"))
    ∧ (([((1 : ℝ), (0 : ℝ)), (1, 0)] : List (ℝ × ℝ)).length ≠ 1
      ∧ combined_B1 [((1 : ℝ), (0 : ℝ)), (1, 0)] ([fun _ => 1] : List (Fin 1 → ℂ))
        = .error "assert shim_array.shape[0] == data.B1.shape[0]") :=
  ⟨⟨by decide, C9_fatal_errors.1 1 _ "xx" _ (by decide)⟩,
    ⟨by decide, C9_fatal_errors.2.1 1 _ _ (by decide) (by decide)⟩⟩

theorem zip_getD {α β : Type} : ∀ (A : List α) (B : List β) (i : ℕ) (dA : α) (dB : β),
    i < A.length → i < B.length →
    (A.zip B).getD i (dA, dB) = (A.getD i dA, B.getD i dB)
  | _ :: _, _ :: _, 0, _, _, _, _ => rfl
  | _ :: A, _ :: B, i + 1, dA, dB, h1, h2 =>
    zip_getD A B i dA dB (by simpa using h1) (by simpa using h2)
  | [], _, _, _, _, h1, _ => absurd h1 (by simp)
  | _ :: _, [], _, _, _, _, h2 => absurd h2 (by simp)

theorem zip_take_min {α β : Type} : ∀ (A : List α) (B : List β),
    (A.take (min A.length B.length)).zip (B.take (min A.length B.length)) = A.zip B
  | [], _ => by simp
  | _ :: _, [] => by simp
  | a :: A, b :: B => by
    simp only [List.length_cons, Nat.succ_min_succ, List.take_succ_cons, List.zip_cons_cons]
    rw [zip_take_min A B]

theorem drop_one_take {α : Type} (l : List α) (k : ℕ) :
    (l.take (k + 1)).drop 1 = (l.drop 1).take k := by
  cases l <;> simp

theorem headD_take {α : Type} (l : List α) (k : ℕ) (d : α) :
    (l.take (k + 1)).headD d = l.headD d := by
  cases l <;> simp

/-- C1 counterexample: the claim's `z_to_p = -(1/√2)·i·sin(angle)·exp(iφ)`
does not match the code, which uses the decimal literal `0.70710678118` in
place of `1/√2` (line 149): at a 90° pulse with phase 0 and unit B1 the two
imaginary parts differ (the spec value is strictly smaller). -/
theorem C1_rf_coeffs_counterexample :
    ((rf_coeffs_spec (Real.pi / 2) 0 (fun _ : Fin 1 => 1)).z_to_p 0).im
      < ((rf_coeffs (Real.pi / 2) 0 (fun _ : Fin 1 => 1)).z_to_p 0).im := by
  have h1 : ((rf_coeffs (Real.pi / 2) 0 (fun _ : Fin 1 => 1)).z_to_p 0)
      = -(0.70710678118 : ℂ) * Complex.I := by
    simp [rf_coeffs, Complex.arg_one, Real.sin_pi_div_two]
  have h2 : ((rf_coeffs_spec (Real.pi / 2) 0 (fun _ : Fin 1 => 1)).z_to_p 0)
      = -(((1 / Real.sqrt 2 : ℝ) : ℂ)) * Complex.I := by
    simp [rf_coeffs_spec, Complex.arg_one, Real.sin_pi_div_two]
  rw [h1, h2]
  simp only [neg_mul, Complex.neg_im, Complex.mul_im, Complex.I_re, Complex.I_im,
    Complex.ofReal_re, Complex.ofReal_im]
  norm_num
  rw [← Real.sqrt_inv, Real.lt_sqrt (by norm_num)]
  norm_num

/-- C1 (amended): the six RF transition coefficients are computed from the
effective angle `angle·|combined B1|` and effective phase
`phase + arg(combined B1)` as `z_to_z = cos(angle)`, `p_to_p = cos(angle/2)²`,
`z_to_p = -0.70710678118·i·sin(angle)·exp(iφ)` (the code's decimal literal in
place of the claimed `1/√2`), `p_to_z = -conj(z_to_p)`, `m_to_z = -z_to_p`,
`m_to_p = (1 - p_to_p)·exp(2iφ)`; and whenever the combined B1 map is
computed successfully it equals the spec's description (coil-field sum
weighted by the shim when more than one shim channel is active, plain field
sum otherwise). -/
theorem C1_rf_coeffs_amended {n : ℕ} (angle phase : ℝ) (B1 : Fin n → ℂ) (v : Fin n)
    (shim : List (ℝ × ℝ)) (B1l : List (Fin n → ℂ)) (g : Fin n → ℂ) :
    ((rf_coeffs angle phase B1).z_to_z v = Real.cos (angle * Complex.abs (B1 v))
    ∧ (rf_coeffs angle phase B1).p_to_p v = Real.cos (angle * Complex.abs (B1 v) / 2) ^ 2
    ∧ (rf_coeffs angle phase B1).z_to_p v
        = -(0.70710678118 : ℂ) * Complex.I
          * ((Real.sin (angle * Complex.abs (B1 v)) : ℝ) : ℂ)
          * Complex.exp (Complex.I * ((phase + Complex.arg (B1 v) : ℝ) : ℂ))
    ∧ (rf_coeffs angle phase B1).p_to_z v
        = -(starRingEnd ℂ) ((rf_coeffs angle phase B1).z_to_p v)
    ∧ (rf_coeffs angle phase B1).m_to_z v = -((rf_coeffs angle phase B1).z_to_p v)
    ∧ (rf_coeffs angle phase B1).m_to_p v
        = ((1 - (rf_coeffs angle phase B1).p_to_p v : ℝ) : ℂ)
          * Complex.exp (2 * Complex.I * ((phase + Complex.arg (B1 v) : ℝ) : ℂ)))
    ∧ (combined_B1 shim B1l = .ok g → g = combined_B1_spec shim B1l) := by
  constructor
  · exact ⟨rfl, rfl, rfl, rfl, rfl, rfl⟩
  · intro h
    unfold combined_B1 at h
    unfold combined_B1_spec
    by_cases h1 : shim.length = 1
    · rw [if_pos h1] at h
      rw [if_neg (by omega)]
      exact (Except.ok.inj h).symm
    · rw [if_neg h1] at h
      by_cases h2 : shim.length = B1l.length
      · rw [if_pos h2] at h
        have hg := (Except.ok.inj h).symm
        by_cases h3 : 1 < shim.length
        · rw [if_pos h3]; exact hg
        · rw [if_neg h3]
          have hB : B1l = [] := List.length_eq_zero.mp (by omega)
          have hs : shim = [] := List.length_eq_zero.mp (by omega)
          subst hB; subst hs
          rw [hg]; funext w; simp
      · rw [if_neg h2] at h
        exact absurd h (by simp)

/-- Witness for the amended C1 at a single-channel shim and unit field. -/
theorem C1_rf_coeffs_amended_witness :
    combined_B1 [((1 : ℝ), (0 : ℝ))] ([fun _ => 1] : List (Fin 1 → ℂ)) = .ok wB1
    ∧ wB1 = combined_B1_spec [((1 : ℝ), (0 : ℝ))] [fun _ => 1]
    ∧ (rf_coeffs 0 0 wB1).z_to_z 0 = Real.cos (0 * Complex.abs (wB1 0)) :=
  ⟨rfl,
    (C1_rf_coeffs_amended 0 0 wB1 0 [((1 : ℝ), (0 : ℝ))] [fun _ => 1] wB1).2 rfl,
    (C1_rf_coeffs_amended 0 0 wB1 0 [((1 : ℝ), (0 : ℝ))] [fun _ => 1] wB1).1.1⟩

/-- C6: the end-of-repetition carry-over: a `"+"` state's magnetization is
multiplied by `exp(-total_time/|T2|)`, the cumulative end-of-repetition
diffusion attenuation and — when motion is modeled — the final motion-phase
rotation, and its `k_tau` advances to the last trajectory value; a
longitudinal state's magnetization is multiplied by `exp(-total_time/|T1|)`
and `exp(-1e-9·D·total_time·k²)` with `k²` the squared norm of its current
spatial k-vector; the equilibrium state additionally regrows by
`1 - exp(-total_time/|T1|)`. -/
theorem C6_carry_over {n : ℕ} (T1 T2 D : Fin n → ℝ) (tt : ℝ) (mag : Fin n → ℂ)
    (kt tl : Fin 4 → ℝ) (dtraj : List (Fin 4 → ℝ)) (diff : List (Fin n → ℝ))
    (dl : Fin n → ℝ) (mot : Option (Fin n → ℝ)) (mp : Fin n → ℝ)
    (htl : dtraj.getLast? = some tl) (hdl : diff.getLast? = some dl) :
    (carry_over T1 T2 D tt DistType.plus mag kt dtraj diff none
      = (fun v => mag v * ((Real.exp (-tt / |T2 v|) : ℝ) : ℂ) * ((dl v : ℝ) : ℂ), tl))
    ∧ (carry_over T1 T2 D tt DistType.plus mag kt dtraj diff (some mp)
      = (fun v => mag v * ((Real.exp (-tt / |T2 v|) : ℝ) : ℂ) * ((dl v : ℝ) : ℂ)
          * Complex.exp (2 * Complex.I * ((Real.pi : ℝ) : ℂ) * ((mp v : ℝ) : ℂ)), tl))
    ∧ (carry_over T1 T2 D tt DistType.z mag kt dtraj diff mot
      = (fun v => mag v * ((Real.exp (-tt / |T1 v|) : ℝ) : ℂ)
          * ((Real.exp (-1e-9 * D v * tt * (∑ i : Fin 3, kt i.castSucc ^ 2)) : ℝ) : ℂ), kt))
    ∧ (carry_over T1 T2 D tt DistType.z0 mag kt dtraj diff mot
      = (fun v => mag v * ((Real.exp (-tt / |T1 v|) : ℝ) : ℂ)
          * ((Real.exp (-1e-9 * D v * tt * (∑ i : Fin 3, kt i.castSucc ^ 2)) : ℝ) : ℂ)
          + (1 - ((Real.exp (-tt / |T1 v|) : ℝ) : ℂ)), kt)) := by
  have hsq : Real.sqrt (∑ i : Fin 3, kt i.castSucc ^ 2) ^ 2
      = ∑ i : Fin 3, kt i.castSucc ^ 2 :=
    Real.sq_sqrt (Finset.sum_nonneg fun i _ => sq_nonneg _)
  refine ⟨?_, ?_, ?_, ?_⟩
  · simp [carry_over, hdl, htl]
  · simp [carry_over, hdl, htl]
  · simp [carry_over, hsq]
  · simp [carry_over, hsq]
    funext v
    ring

/-- Witness for C6 at one-event lists and the static one-voxel phantom. -/
theorem C6_carry_over_witness :
    (([fun _ => 0] : List (Fin 4 → ℝ)).getLast? = some (fun _ => 0))
    ∧ (([fun _ => 1] : List (Fin 1 → ℝ)).getLast? = some (fun _ => 1))
    ∧ carry_over dataA.T1 dataA.T2 dataA.D 0 DistType.plus (fun _ => 1) (fun _ => 0)
        ([fun _ => 0] : List (Fin 4 → ℝ)) ([fun _ => 1] : List (Fin 1 → ℝ)) none
      = (fun v => (1 : ℂ) * ((Real.exp (-(0 : ℝ) / |dataA.T2 v|) : ℝ) : ℂ) * (((1 : ℝ)) : ℂ),
          fun _ => 0) :=
  ⟨rfl, rfl,
    (C6_carry_over dataA.T1 dataA.T2 dataA.D 0 (fun _ => 1) (fun _ => 0) (fun _ => 0)
      [fun _ => 0] [fun _ => 1] (fun _ => 1) none (fun _ => 0) rfl rfl).1⟩

/-- C8: with no motion model configured, no voxel-position function is built,
and the motion phase contributes exactly zero: the signal rotation at a
motion phase of 0 is exactly the motion-free rotation, and the transverse
carry-over with no motion equals the carry-over with an all-zero final motion
phase. -/
theorem C8_no_motion :
    (∀ (n c : ℕ) (data : SimData n c), data.voxel_motion = none →
      data.phantom_motion = none → voxel_pos_func data = none)
    ∧ (∀ (B0v : ℝ) (posv : Fin 3 → ℝ) (kt : Fin 4 → ℝ),
        signal_rot B0v posv kt 0
          = Complex.exp (2 * Complex.I * ((Real.pi : ℝ) : ℂ) *
              ((tau kt * B0v + (∑ i : Fin 3, spatial kt i * posv i) : ℝ) : ℂ)))
    ∧ (∀ (n : ℕ) (T1 T2 D : Fin n → ℝ) (tt : ℝ) (dty : DistType) (mag : Fin n → ℂ)
        (kt : Fin 4 → ℝ) (dtraj : List (Fin 4 → ℝ)) (diff : List (Fin n → ℝ)),
        carry_over T1 T2 D tt dty mag kt dtraj diff none
          = carry_over T1 T2 D tt dty mag kt dtraj diff (some (fun _ => 0))) := by
  refine ⟨?_, ?_, ?_⟩
  · intro n c data h1 h2
    simp [voxel_pos_func, h1, h2]
  · intro B0v posv kt
    simp [signal_rot]
  · intro n T1 T2 D tt dty mag kt dtraj diff
    by_cases hd : dty = DistType.plus
    · subst hd
      simp [carry_over]
    · simp [carry_over, hd]

/-- Witness for C8 at the static one-voxel phantom. -/
theorem C8_no_motion_witness :
    dataA.voxel_motion = none ∧ dataA.phantom_motion = none
    ∧ voxel_pos_func dataA = none
    ∧ signal_rot 0 (fun _ => 0) (fun _ => 0) 0
      = Complex.exp (2 * Complex.I * ((Real.pi : ℝ) : ℂ) *
          ((tau (fun _ => 0) * 0 + (∑ i : Fin 3, spatial (fun _ => 0) i * 0) : ℝ) : ℂ)) :=
  ⟨rfl, rfl, C8_no_motion.1 1 1 dataA rfl rfl, C8_no_motion.2.1 0 (fun _ => 0) (fun _ => 0)⟩

/-- C3: a non-equilibrium node below the latent threshold, or whose filtered
(surviving) ancestor list is empty, is skipped entirely: its magnetization is
left unassigned (`none`), its pre-pass `kt_vec` is kept, it contributes only
zero rows to the repetition signal, and — since descendants filter ancestors
by the presence of magnetization — it is excluded from every later node's
surviving ancestors. -/
theorem C3_skip_node {n c : ℕ} (data : SimData n c) (ctx : RepCtx n)
    (me ml : ℝ) (prev : List (State n)) (dist : PyDistribution n)
    (h1 : dist.dist_type ≠ DistType.z0)
    (h2 : dist.latent_signal < ml ∨ surviving_ancestors prev dist = []) :
    sim_dist data ctx me ml prev dist
      = .ok (⟨none, dist.kt_vec⟩, List.replicate (ctx.adc.count true) 0)
    ∧ ∀ (prev2 : List (State n)) (d2 : PyDistribution n) (p : String × State n),
        p ∈ surviving_ancestors prev2 d2 → p.2.mag.isSome = true :=
  ⟨sim_dist_skip data ctx me ml prev dist h1 h2,
    fun prev2 d2 p hp => surviving_ancestors_isSome prev2 d2 p hp⟩

/-- Witness for C3 at a below-threshold `"+"` node. -/
theorem C3_skip_node_witness :
    (distP.dist_type ≠ DistType.z0 ∧ distP.latent_signal < 1e-2)
    ∧ sim_dist dataA ctxA 1e-2 1e-2 [seedState] distP
      = .ok (⟨none, distP.kt_vec⟩, List.replicate (ctxA.adc.count true) 0) :=
  ⟨⟨by decide, by norm_num [distP]⟩,
    (C3_skip_node dataA ctxA 1e-2 1e-2 [seedState] distP (by decide)
      (Or.inl (by norm_num [distP]))).1⟩

/-- C4 (amended, non-equilibrium nodes): a non-equilibrium node whose
`latent_signal` is strictly below the latent threshold never gets a
magnetization in any processed repetition of the pass, and a non-equilibrium
node all of whose ancestors lack a simulated magnetization (in particular one
depending solely on skipped nodes) is also skipped. -/
theorem C4_pruning_amended :
    (∀ (n c : ℕ) (data : SimData n c) (gs : Fin 3 → ℝ) (me ml t0 : ℝ)
      (prev : List (State n)) (pairs : List (List (PyDistribution n) × Repetition))
      (stss : List (List (State n))) (sigs : List (List (Fin c → ℂ))),
      run_reps data gs me ml t0 prev pairs = .ok (stss, sigs) →
      ∀ i j, i < pairs.length → j < (pairs.getD i ([], default_rep)).1.length →
        ((pairs.getD i ([], default_rep)).1.getD j (default_dist n)).dist_type
          ≠ DistType.z0 →
        ((pairs.getD i ([], default_rep)).1.getD j (default_dist n)).latent_signal < ml →
        ((stss.getD i []).getD j (default_state n)).mag = none)
    ∧ (∀ (n c : ℕ) (data : SimData n c) (gs : Fin 3 → ℝ) (me ml t0 : ℝ)
        (prev : List (State n)) (dists : List (PyDistribution n)) (rep : Repetition)
        (sts : List (State n)) (sig : List (Fin c → ℂ)),
        sim_rep data gs me ml t0 prev dists rep = .ok (sts, sig) →
        ∀ j, j < dists.length →
          (dists.getD j (default_dist n)).dist_type ≠ DistType.z0 →
          (∀ e ∈ (dists.getD j (default_dist n)).ancestors,
            (prev.getD e.2 (default_state n)).mag = none) →
          (sts.getD j (default_state n)).mag = none) := by
  constructor
  · intro n c data gs me ml t0 prev pairs stss sigs hok i j hi hj hz hl
    obtain ⟨-, -, hidx⟩ := run_reps_ok data gs me ml pairs t0 prev stss sigs hok
    obtain ⟨t1, sig, hsr⟩ := hidx i hi
    exact sim_rep_skip_state data gs me ml t1 _ _ _ _ _ hsr j hj hz (Or.inl hl)
  · intro n c data gs me ml t0 prev dists rep sts sig hok j hj hz hanc
    apply sim_rep_skip_state data gs me ml t0 prev dists rep sts sig hok j hj hz
    right
    unfold surviving_ancestors
    rw [List.filter_eq_nil_iff]
    intro p hp
    obtain ⟨e, he, rfl⟩ := List.mem_map.mp hp
    have hm := hanc e he
    rw [List.getD_eq_getElem?_getD] at hm
    simp [hm]

/-- C4 counterexample: an equilibrium (`"z0"`) node with `latent_signal = 0`,
strictly below the configured threshold `1e-2`, nevertheless receives a
computed magnetization, because the latent-signal pruning of line 231 exempts
`"z0"` nodes — the claim's "every node" fails for equilibrium nodes. -/
theorem C4_pruning_counterexample :
    distZ0.latent_signal < 1e-2 ∧ distZ0.dist_type = DistType.z0
    ∧ (run_reps dataA (fun _ => 1) 1e-2 1e-2 0 [seedState] [([distZ0], repA)]).map
        (fun p => ((p.1.headD []).headD (default_state 1)).mag.isSome) = .ok true := by
  refine ⟨by norm_num [distZ0], by decide, ?_⟩
  have hB1 : combined_B1 repA.pulse.shim_array dataA.B1 = .ok wB1 := rfl
  simp only [run_reps, sim_rep, hB1, sim_dists, sim_dist]
  simp [distZ0, seedState, surviving_ancestors, sum_calc_mag, calc_mag]
  rfl

/-- Witness for the amended C4 (second part): a `"+"` node all of whose
ancestors lack a simulated magnetization is skipped. -/
theorem C4_pruning_amended_witness :
    sim_rep dataA (fun _ => 1) 1e-2 1e-2 0 [] [distP] repA
      = .ok ([⟨none, distP.kt_vec⟩], [])
    ∧ ([distP].getD 0 (default_dist 1)).dist_type ≠ DistType.z0
    ∧ ([(⟨none, distP.kt_vec⟩ : State 1)].getD 0 (default_state 1)).mag = none := by
  have hrep : sim_rep dataA (fun _ => 1) 1e-2 1e-2 0 [] [distP] repA
      = .ok ([⟨none, distP.kt_vec⟩], []) := by
    have hB1 : combined_B1 repA.pulse.shim_array dataA.B1 = .ok wB1 := rfl
    have hskip := sim_dist_skip dataA
      (mk_ctx dataA (fun _ => 1) 0 wB1 repA) 1e-2 1e-2 [] distP
      (by decide) (Or.inr (by simp [surviving_ancestors, distP, default_state]))
    simp only [sim_rep, hB1, sim_dists, hskip]
    simp [mk_ctx, adc_mask, repA, evA, apply_mask]
  refine ⟨hrep, by decide, ?_⟩
  exact C4_pruning_amended.2 1 1 dataA (fun _ => 1) 1e-2 1e-2 0 [] [distP] repA
    [⟨none, distP.kt_vec⟩] [] hrep 0 (by simp) (by decide) (fun e he => rfl)

/-- C7: the returned signal has one row per ADC-active event of each
processed repetition, in repetition-major order: its length is the sum over
the zipped (graph tail, sequence) pairs of the repetition's ADC count (each
row has one entry per receive coil by type).  A repetition with an all-false
ADC mask contributes `adc_count = 0` rows. -/
theorem C7_signal_length {n c : ℕ} (graph : List (List (PyDistribution n)))
    (seq : Sequence) (data : SimData n c) (me ml : ℝ) (im : Option (Fin n → ℂ))
    (sig : List (Fin c → ℂ))
    (hok : execute_graph graph seq data me ml im = .ok sig) :
    sig.length = (((graph.drop 1).zip seq.reps).map (fun pr => adc_count pr.2)).sum := by
  simp only [execute_graph] at hok
  split at hok
  · exact absurd hok (by simp)
  · rename_i stss sigs hrun
    simp only [Except.ok.injEq] at hok
    obtain ⟨-, hmap, -⟩ := run_reps_ok data (grad_scale_of seq data) me ml
      ((graph.drop 1).zip seq.reps) 0 _ stss sigs hrun
    rw [← hok, List.length_flatten, hmap]

/-- Witness for C7: a two-repetition graph over a one-repetition sequence
with no ADC events yields an empty signal of the predicted length. -/
theorem C7_signal_length_witness :
    execute_graph [[distZ0], [distZ0]] ⟨[repA], false⟩ dataA 1e-2 1e-2 none = .ok []
    ∧ ([] : List (Fin 1 → ℂ)).length
      = (((([[distZ0], [distZ0]] : List (List (PyDistribution 1))).drop 1).zip
          ([repA] : List Repetition)).map (fun pr => adc_count pr.2)).sum := by
  have hexe : execute_graph [[distZ0], [distZ0]] ⟨[repA], false⟩ dataA 1e-2 1e-2 none
      = .ok [] := by
    have hB1 : combined_B1 repA.pulse.shim_array dataA.B1 = .ok wB1 := rfl
    simp only [execute_graph, grad_scale_of, List.drop_one, List.tail_cons,
      List.zip_cons_cons, List.zip_nil_right, List.headD_cons, Bool.false_eq_true, if_false]
    simp only [run_reps, sim_rep, hB1, sim_dists, sim_dist]
    simp [distZ0, surviving_ancestors, sum_calc_mag, calc_mag, mk_ctx, adc_mask, repA, evA,
      apply_mask, default_state]
  exact ⟨hexe,
    C7_signal_length [[distZ0], [distZ0]] ⟨[repA], false⟩ dataA 1e-2 1e-2 none [] hexe⟩

/-- C10: `execute_graph` pairs graph repetition list `i+1` with sequence
repetition `i` and processes exactly `min(len(graph) - 1, len(seq))`
repetitions; dropping the excess graph lists and excess sequence repetitions
leaves the returned signal unchanged. -/
theorem C10_rep_pairing {n c : ℕ} (graph : List (List (PyDistribution n)))
    (seq : Sequence) (data : SimData n c) (me ml : ℝ) (im : Option (Fin n → ℂ)) :
    ((graph.drop 1).zip seq.reps).length = min (graph.length - 1) seq.reps.length
    ∧ (∀ (i : ℕ) (dA : List (PyDistribution n)) (dB : Repetition),
        i < min (graph.length - 1) seq.reps.length →
        ((graph.drop 1).zip seq.reps).getD i (dA, dB)
          = (graph.getD (i + 1) dA, seq.reps.getD i dB))
    ∧ execute_graph graph seq data me ml im
      = execute_graph (graph.take (min (graph.length - 1) seq.reps.length + 1))
          ⟨seq.reps.take (min (graph.length - 1) seq.reps.length), seq.normalized_grads⟩
          data me ml im := by
  have hlen : (graph.drop 1).length = graph.length - 1 := by simp
  refine ⟨by simp [List.length_zip, hlen], ?_, ?_⟩
  · intro i dA dB hi
    have h1 : i < (graph.drop 1).length := by omega
    have h2 : i < seq.reps.length := by omega
    rw [zip_getD _ _ i dA dB h1 h2]
    simp only [List.getD_eq_getElem?_getD, List.getElem?_drop, Nat.add_comm 1 i]
  · have hpairs : (((graph.take (min (graph.length - 1) seq.reps.length + 1)).drop 1).zip
        (seq.reps.take (min (graph.length - 1) seq.reps.length)))
        = (graph.drop 1).zip seq.reps := by
      rw [drop_one_take]
      have hmin : min (graph.length - 1) seq.reps.length
          = min (graph.drop 1).length seq.reps.length := by rw [hlen]
      rw [hmin, zip_take_min]
    have hhead : (graph.take (min (graph.length - 1) seq.reps.length + 1)).headD []
        = graph.headD [] := headD_take _ _ _
    simp only [execute_graph, hpairs, hhead, grad_scale_of]

/-- Witness for C10 at a two-repetition graph and a one-repetition
sequence. -/
theorem C10_rep_pairing_witness :
    (0 < min (([[distZ0], [distZ0]] : List (List (PyDistribution 1))).length - 1)
      [repA].length)
    ∧ ((([[distZ0], [distZ0]] : List (List (PyDistribution 1))).drop 1).zip
        [repA]).getD 0 ([], default_rep)
      = (([[distZ0], [distZ0]] : List (List (PyDistribution 1))).getD 1 [],
          [repA].getD 0 default_rep) :=
  ⟨by simp,
    (C10_rep_pairing [[distZ0], [distZ0]] ⟨[repA], false⟩ dataA 1e-2 1e-2 none).2.1
      0 [] default_rep (by simp)⟩

end MainPass
